import Mathlib

/-!
Verification of the meal-maker fridge module (`src/fridge.py`, Python 2).

The embedding models:
- `datetime.date` values as triples of integers ordered lexicographically
  (`PyDate`), and Python 2's cross-type comparison rule that `None` is
  smaller than every other value (`optDateBlt`, `optDateBle`);
- Python strings as Lean `String`s, compared lexicographically by code
  point on their character lists (`charListLt`), exactly as CPython 2
  compares byte/ordinal sequences;
- `FoodItem`, `FoodList` (as a plain `List FoodItem`), `RecipeItem`,
  and the `RecipeBuilder` operations `build_fridge_item`,
  `_compact_food_list`, `todays_food`, `_get_cooking_date` and
  `todays_recipe`;
- Python's stable `sorted` as a stable insertion sort (`sortLe`), and
  `itertools.groupby` as grouping of maximal runs of equal keys
  (`groupRuns`);
- the in-place mutation `item.amount = sum(...)` performed by
  `_compact_food_list` on objects aliased by the fridge, via an
  index-tagged state-passing variant (`todays_recipe_state`).
-/

/-- Calendar date as stored by `datetime.date(year, month, day)`:
a triple of integers, ordered lexicographically. -/
structure PyDate where
  year : Int
  month : Int
  day : Int
deriving DecidableEq

/-- Strict comparison of dates, `datetime.date.__lt__`: lexicographic on
(year, month, day). -/
def PyDate.blt (a b : PyDate) : Bool :=
  decide (a.year < b.year ∨ (a.year = b.year ∧ (a.month < b.month ∨
    (a.month = b.month ∧ a.day < b.day))))

/-- Non-strict comparison of dates, `datetime.date.__le__`. -/
def PyDate.ble (a b : PyDate) : Bool :=
  decide (a.year < b.year ∨ (a.year = b.year ∧ (a.month < b.month ∨
    (a.month = b.month ∧ a.day ≤ b.day))))

/-- Python 2 comparison `a < b` on an optional date: CPython 2 orders
`None` below every other object, so `None < d` for every date `d`. -/
def optDateBlt (a b : Option PyDate) : Bool :=
  match a, b with
  | none, none => false
  | none, some _ => true
  | some _, none => false
  | some x, some y => PyDate.blt x y

/-- Python 2 comparison `a <= b` on an optional date (`None` smallest). -/
def optDateBle (a b : Option PyDate) : Bool :=
  match a, b with
  | none, _ => true
  | some _, none => false
  | some x, some y => PyDate.ble x y

/-- CPython's lexicographic comparison of strings, on their character
(code-point) lists. -/
def charListLt : List Char → List Char → Bool
  | [], [] => false
  | [], _ :: _ => true
  | _ :: _, [] => false
  | c :: cs, d :: ds =>
    if c.toNat < d.toNat then true
    else if d.toNat < c.toNat then false
    else charListLt cs ds

/-- `a <= b` on strings, as used (negated, flipped) by Python's stable
`sorted`, which only ever asks `key(x) < key(y)`. -/
def strBle (a b : String) : Bool := ! charListLt b.data a.data

/-- One line item of food: `FoodItem(amt, food_type, name, date)` from
`src/fridge.py`.  `type` holds the `FoodType` unit string, `expiry` the
optional `datetime.date`. -/
structure FoodItem where
  amount : Int
  type : String
  name : String
  expiry : Option PyDate
deriving DecidableEq

/-- The closed `FoodType` enumeration values. -/
def FoodType.SINGLE : String := "of"

/-- `FoodType.GRAMS`. -/
def FoodType.GRAMS : String := "grams"

/-- `FoodType.ML`. -/
def FoodType.ML : String := "ml"

/-- `FoodType.SLICES`. -/
def FoodType.SLICES : String := "slices"

/-- `FoodType.build`: accept exactly the four unit strings, reject
(raise, modelled as `none`) anything else. -/
def FoodType.build (s : String) : Option String :=
  if s = FoodType.SINGLE ∨ s = FoodType.GRAMS ∨ s = FoodType.ML ∨ s = FoodType.SLICES then
    some s
  else none

/-- The whitespace characters removed by Python's `str.strip()`:
`\t \n \v \f \r` and space. -/
def pyIsSpace (c : Char) : Bool := decide ((9 ≤ c.toNat ∧ c.toNat ≤ 13) ∨ c.toNat = 32)

/-- `str.strip()` on a character list: drop whitespace at both ends. -/
def stripSpaces (l : List Char) : List Char :=
  ((l.dropWhile pyIsSpace).reverse.dropWhile pyIsSpace).reverse

/-- `str.strip()` on a string. -/
def pyStrip (s : String) : String := String.mk (stripSpaces s.data)

/-- Decimal digit test for `int()` parsing. -/
def isDigitB (c : Char) : Bool := decide (48 ≤ c.toNat ∧ c.toNat ≤ 57)

/-- Value of a nonempty all-digit character list; `none` otherwise. -/
def digitsVal (cs : List Char) : Option Nat :=
  if cs ≠ [] ∧ cs.all isDigitB then
    some (cs.foldl (fun a c => a * 10 + (c.toNat - 48)) 0)
  else none

/-- Python `int(s)` on a character list: strip whitespace, optional
single sign, then a nonempty digit string; any other shape raises
`ValueError` (modelled as `none`). -/
def pyIntChars (l : List Char) : Option Int :=
  match stripSpaces l with
  | [] => none
  | c :: rest =>
    if c.toNat = 45 then (digitsVal rest).map (fun n => -(n : Int))
    else if c.toNat = 43 then (digitsVal rest).map (fun n => (n : Int))
    else (digitsVal (c :: rest)).map (fun n => (n : Int))

/-- Python `int(s)` on a string. -/
def pyInt (s : String) : Option Int := pyIntChars s.data

/-- Gregorian leap-year rule, as used by `datetime.date`. -/
def isLeap (y : Int) : Bool := (y % 4 == 0 && y % 100 != 0) || (y % 400 == 0)

/-- Number of days in a month, as validated by `datetime.date`. -/
def daysInMonth (y m : Int) : Int :=
  if m = 2 then (if isLeap y then 29 else 28)
  else if m = 4 ∨ m = 6 ∨ m = 9 ∨ m = 11 then 30
  else 31

/-- `datetime.date(y, m, d)`: succeeds exactly on valid calendar dates
with `1 <= year <= 9999`; otherwise raises (modelled as `none`). -/
def pyDateMk (y m d : Int) : Option PyDate :=
  if 1 ≤ y ∧ y ≤ 9999 ∧ 1 ≤ m ∧ m ≤ 12 ∧ 1 ≤ d ∧ d ≤ daysInMonth y m then
    some ⟨y, m, d⟩
  else none

/-- `str.split('/')` on a character list (Python semantics: empty pieces
are kept, the empty string splits to `[""]`). -/
def splitOnSlash : List Char → List (List Char)
  | [] => [[]]
  | c :: rest =>
    if c.toNat = 47 then [] :: splitOnSlash rest
    else
      match splitOnSlash rest with
      | [] => [[c]]
      | p :: ps => (c :: p) :: ps

/-- `map(int, pieces)` in the `Option` (exception) monad. -/
def mapPyInt : List (List Char) → Option (List Int)
  | [] => some []
  | p :: ps =>
    match pyIntChars p, mapPyInt ps with
    | some v, some vs => some (v :: vs)
    | _, _ => none

/-- The expiry-parsing step of `build_fridge_item`:
`expiry.strip()`, split on `/`, reverse into (year, month, day) order,
convert each piece with `int`, and build a `datetime.date` from exactly
three components. -/
def parseExpiry (e : String) : Option PyDate :=
  match mapPyInt (splitOnSlash (stripSpaces e.data)).reverse with
  | some [y, m, d] => pyDateMk y m d
  | _ => none

/-- The parsing core of `FoodList.build_fridge_item`: trim the name and
refuse empty names, parse the unit with `FoodType.build`, parse the
amount with `int` and refuse non-positive values, and parse the optional
expiry (a falsy — absent or empty — expiry argument is skipped).  Any
failure yields `none`, mirroring the `try`/`except` that produces no
item. -/
def parseFridgeItem (name amt food_type : String) (expiry : Option String) : Option FoodItem :=
  if pyStrip name = "" then none
  else
    match FoodType.build (pyStrip food_type) with
    | none => none
    | some ty =>
      match pyInt amt with
      | none => none
      | some a =>
        if a ≤ 0 then none
        else
          match expiry with
          | none => some ⟨a, ty, pyStrip name, none⟩
          | some e =>
            if e = "" then some ⟨a, ty, pyStrip name, none⟩
            else
              match parseExpiry e with
              | none => none
              | some dt => some ⟨a, ty, pyStrip name, some dt⟩

/-- `FoodList.build_fridge_item`: append the parsed item to the list, or
leave the list unchanged when parsing fails (the failure is only
printed). -/
def build_fridge_item (items : List FoodItem) (name amt food_type : String)
    (expiry : Option String) : List FoodItem :=
  match parseFridgeItem name amt food_type expiry with
  | some it => items ++ [it]
  | none => items

/-- Stable insertion of `x` into `l`: `x` is placed before the first
element `y` with `le x y` (so before every element it ties with),
matching the stable order produced by Python's `sorted`. -/
def insertLe (le : α → α → Bool) (x : α) : List α → List α
  | [] => [x]
  | y :: ys => if le x y then x :: y :: ys else y :: insertLe le x ys

/-- Stable sort by a boolean comparison, modelling Python's stable
`sorted(l, key=...)`. -/
def sortLe (le : α → α → Bool) : List α → List α
  | [] => []
  | x :: xs => insertLe le x (sortLe le xs)

/-- Comparison used by `sorted(food, key=lambda x: x.name)`. -/
def nameLe (x y : FoodItem) : Bool := strBle x.name y.name

/-- Comparison used by `sorted(self.items, key=lambda x: x.expiry)`
(Python 2 sorts `None` before every date). -/
def expiryLe (x y : FoodItem) : Bool := optDateBle x.expiry y.expiry

/-- The `groupby` key `x.name + x.type`, as the concatenated character
list of the two strings. -/
def nameKey (x : FoodItem) : List Char := x.name.data ++ x.type.data

/-- Helper for `groupRuns`: groups `x :: xs` into maximal runs of equal
keys, returning the run containing `x` (head and tail) and the later
runs. -/
def groupRunsAux (key : α → List Char) (x : α) : List α → (α × List α) × List (α × List α)
  | [] => ((x, []), [])
  | y :: ys =>
    let r := groupRunsAux key y ys
    if key x = key y then ((x, y :: r.1.2), r.2) else ((x, []), r.1 :: r.2)

/-- `itertools.groupby(l, key)`: the maximal runs of consecutive
elements with equal keys, each as (first element, rest of the run). -/
def groupRuns (key : α → List Char) : List α → List (α × List α)
  | [] => []
  | x :: xs => (groupRunsAux key x xs).1 :: (groupRunsAux key x xs).2

/-- Concatenation of the groups back into one list. -/
def flattenGroups : List (α × List α) → List α
  | [] => []
  | g :: gs => g.1 :: (g.2 ++ flattenGroups gs)

/-- `FoodList._compact_food_list`: sort by name (stably), group
consecutive entries with equal `name + type` keys, and for each group
keep its first item with `amount` replaced by the group's sum.  (In the
source this assignment mutates the first item in place; the pure value
of the returned list is modelled here, the mutation in
`todays_food_state` below.) -/
def compact_food_list (food : List FoodItem) : List FoodItem :=
  (groupRuns nameKey (sortLe nameLe food)).map
    (fun g => { g.1 with amount := g.1.amount + (g.2.map (fun y => y.amount)).sum })

/-- Python 2 test `x.expiry >= today`: false for `None` expiry (`None`
is below every date), otherwise date comparison. -/
def expiryGe (e : Option PyDate) (today : PyDate) : Bool :=
  match e with
  | none => false
  | some d => PyDate.ble today d

/-- The `edible` intermediate of `FoodList.todays_food`: the fridge
sorted by expiry, keeping only entries with `x.expiry >= today`. -/
def edible_food (today : PyDate) (items : List FoodItem) : List FoodItem :=
  (sortLe expiryLe items).filter (fun x => expiryGe x.expiry today)

/-- `FoodList.todays_food` (with `datetime.date.today()` as an explicit
parameter): filter to the edible entries and compact them. -/
def todays_food (today : PyDate) (items : List FoodItem) : List FoodItem :=
  compact_food_list (edible_food today items)

/-- `RecipeItem`: a recipe name and its required-ingredient list. -/
structure RecipeItem where
  name : String
  ingredients : List FoodItem
deriving DecidableEq

/-- The default `RecipeItem()`: the sentinel "no recipe" value with the
fixed name and empty ingredient list. -/
def RecipeItem.noRecipe : RecipeItem := ⟨"Order Takeout", []⟩

/-- The inner-loop predicate of `RecipeBuilder._get_cooking_date`:
`z.name == y.name and z.amount >= y.amount` — name and quantity only,
never the unit kind. -/
def itemMatches (y z : FoodItem) : Bool :=
  decide (z.name = y.name) && decide (z.amount ≥ y.amount)

/-- The scan of `_get_cooking_date`: bind each required ingredient to
the first matching entry of `food_list` and collect the bound entries'
expiry dates; `none` as soon as one ingredient has no match
(the `break` that abandons the recipe). -/
def matchDates (food_list : List FoodItem) : List FoodItem → Option (List (Option PyDate))
  | [] => some []
  | y :: ys =>
    match food_list.find? (itemMatches y) with
    | none => none
    | some z => (matchDates food_list ys).map (fun ds => z.expiry :: ds)

/-- Python 2 `min(dates)` over collected optional dates (`None` is the
smallest value; `min` keeps the earliest occurrence of the minimum). -/
def pyMinDates : List (Option PyDate) → Option PyDate
  | [] => none
  | d :: ds => ds.foldl (fun best x => if optDateBlt x best then x else best) d

/-- `RecipeBuilder._get_cooking_date`: the minimum expiry among the
bound entries when every ingredient is matched and there is at least one
ingredient (`found` stays `False` on an empty ingredient list), `none`
otherwise. -/
def get_cooking_date (ingredients food_list : List FoodItem) : Option PyDate :=
  match ingredients, matchDates food_list ingredients with
  | [], _ => none
  | _ :: _, none => none
  | _ :: _, some ds => pyMinDates ds

/-- `min(recipe_list, key=lambda x: x[0])`: Python's `min` keeps the
first element whose key is minimal (it replaces the current best only on
a strictly smaller key). -/
def pyMinByDate (p : PyDate × RecipeItem) (ps : List (PyDate × RecipeItem)) :
    PyDate × RecipeItem :=
  ps.foldl (fun best x => if PyDate.blt x.1 best.1 then x else best) p

/-- `RecipeBuilder.todays_recipe` (value semantics): compute today's
food from the fridge, keep the `(date, recipe)` pairs of recipes whose
cooking date is truthy, and return the recipe of the first minimal-date
pair, or the sentinel when no recipe qualifies. -/
def todays_recipe (today : PyDate) (fridge : List FoodItem)
    (recipes : List RecipeItem) : RecipeItem :=
  let all_list := todays_food today fridge
  let recipe_list := recipes.filterMap (fun item =>
    match get_cooking_date item.ingredients all_list with
    | none => none
    | some date => some (date, item))
  match recipe_list with
  | [] => RecipeItem.noRecipe
  | p :: ps => (pyMinByDate p ps).2

/-- The `(date, recipe)` pair built for one recipe inside
`todays_recipe`: `none` when the cooking date is falsy, the pair
otherwise (the body is exactly the per-recipe step of the loop). -/
def recipeListEntry (today : PyDate) (fridge : List FoodItem) (item : RecipeItem) :
    Option (PyDate × RecipeItem) :=
  match get_cooking_date item.ingredients (todays_food today fridge) with
  | none => none
  | some date => some (date, item)

/-- Position tags for fridge items, to track which stored objects the
in-place mutation of `_compact_food_list` writes to. -/
def tagItems (n : Nat) : List FoodItem → List (Nat × FoodItem)
  | [] => []
  | x :: xs => (n, x) :: tagItems (n + 1) xs

/-- Apply the recorded `item.amount = sum(...)` mutations back to the
fridge list: position `i` gets the amount recorded for tag `i`, if
any. -/
def applyMuts (muts : List (Nat × Int)) : Nat → List FoodItem → List FoodItem
  | _, [] => []
  | i, x :: xs =>
    (match muts.lookup i with
     | some a => { x with amount := a }
     | none => x) :: applyMuts muts (i + 1) xs

/-- `FoodList.todays_food` with its side effect: the returned compacted
list together with the fridge contents after `_compact_food_list`
mutated, in place, the amount of each group's first item (those objects
are aliased by the fridge's own list). -/
def todays_food_state (today : PyDate) (items : List FoodItem) :
    List FoodItem × List FoodItem :=
  let edible := (sortLe (fun a b => expiryLe a.2 b.2) (tagItems 0 items)).filter
    (fun a => expiryGe a.2.expiry today)
  let gs := groupRuns (fun a => nameKey a.2) (sortLe (fun a b => nameLe a.2 b.2) edible)
  let muts := gs.map (fun g => (g.1.1, g.1.2.amount + (g.2.map (fun y => y.2.amount)).sum))
  (gs.map (fun g => { g.1.2 with amount := g.1.2.amount + (g.2.map (fun y => y.2.amount)).sum }),
   applyMuts muts 0 items)

/-- `RecipeBuilder.todays_recipe` with its side effect on the fridge:
returns the selected recipe and the fridge contents after the call. -/
def todays_recipe_state (today : PyDate) (fridge : List FoodItem)
    (recipes : List RecipeItem) : RecipeItem × List FoodItem :=
  let s := todays_food_state today fridge
  let recipe_list := recipes.filterMap (fun item =>
    match get_cooking_date item.ingredients s.1 with
    | none => none
    | some date => some (date, item))
  (match recipe_list with
   | [] => RecipeItem.noRecipe
   | p :: ps => (pyMinByDate p ps).2, s.2)

/-- Calendar predecessor of a date ("today minus one day",
`datetime.timedelta(days=1)` subtraction), used to state the expiry
boundary. -/
def dayBefore (t : PyDate) : PyDate :=
  if t.day > 1 then ⟨t.year, t.month, t.day - 1⟩
  else if t.month > 1 then ⟨t.year, t.month - 1, daysInMonth t.year (t.month - 1)⟩
  else ⟨t.year - 1, 12, 31⟩

/-- Amount of food of one exact (name, kind) pair in a list: used to
state the quantity-conservation property of compaction. -/
def sumNK (n k : String) (l : List FoodItem) : Int :=
  ((l.filter (fun x => decide (x.name = n) && decide (x.type = k))).map
    (fun x => x.amount)).sum

/-! ### Order facts about the date and string comparisons -/

theorem PyDate.ble_refl (a : PyDate) : PyDate.ble a a = true := by
  unfold PyDate.ble
  rw [decide_eq_true_eq]
  omega

theorem PyDate.blt_to_ble {a b : PyDate} (h : PyDate.blt a b = true) :
    PyDate.ble a b = true := by
  simp only [PyDate.blt, decide_eq_true_eq] at h
  simp only [PyDate.ble, decide_eq_true_eq]
  omega

theorem PyDate.ble_total (a b : PyDate) :
    PyDate.ble a b = true ∨ PyDate.ble b a = true := by
  simp only [PyDate.ble, decide_eq_true_eq]
  omega

theorem PyDate.ble_trans {a b c : PyDate} (h1 : PyDate.ble a b = true)
    (h2 : PyDate.ble b c = true) : PyDate.ble a c = true := by
  simp only [PyDate.ble, decide_eq_true_eq] at h1 h2 ⊢
  omega

theorem PyDate.ble_blt_trans {a b c : PyDate} (h1 : PyDate.ble a b = true)
    (h2 : PyDate.blt b c = true) : PyDate.blt a c = true := by
  simp only [PyDate.ble, PyDate.blt, decide_eq_true_eq] at h1 h2 ⊢
  omega

theorem PyDate.blt_false_ble {a b : PyDate} (h : PyDate.blt a b = false) :
    PyDate.ble b a = true := by
  simp only [PyDate.blt, decide_eq_false_iff_not] at h
  simp only [PyDate.ble, decide_eq_true_eq]
  omega

theorem optDateBle_refl (a : Option PyDate) : optDateBle a a = true := by
  cases a with
  | none => rfl
  | some x => simpa [optDateBle] using PyDate.ble_refl x

theorem optDateBle_total (a b : Option PyDate) :
    optDateBle a b = true ∨ optDateBle b a = true := by
  cases a with
  | none => exact Or.inl rfl
  | some x =>
    cases b with
    | none => exact Or.inr rfl
    | some y => simpa [optDateBle] using PyDate.ble_total x y

theorem optDateBle_trans {a b c : Option PyDate} (h1 : optDateBle a b = true)
    (h2 : optDateBle b c = true) : optDateBle a c = true := by
  cases a with
  | none => rfl
  | some x =>
    cases b with
    | none => simp [optDateBle] at h1
    | some y =>
      cases c with
      | none => simp [optDateBle] at h2
      | some z =>
        simp only [optDateBle] at h1 h2 ⊢
        exact PyDate.ble_trans h1 h2

theorem optDateBlt_false_ble {a b : Option PyDate} (h : optDateBlt a b = false) :
    optDateBle b a = true := by
  cases a with
  | none =>
    cases b with
    | none => rfl
    | some y => simp [optDateBlt] at h
  | some x =>
    cases b with
    | none => rfl
    | some y =>
      simp only [optDateBlt] at h
      simp only [optDateBle]
      exact PyDate.blt_false_ble h

theorem optDateBle_blt_trans {a b c : Option PyDate} (h1 : optDateBle a b = true)
    (h2 : optDateBlt b c = true) : optDateBlt a c = true := by
  cases b with
  | none =>
    cases a with
    | none => exact h2
    | some x => simp [optDateBle] at h1
  | some y =>
    cases c with
    | none => simp [optDateBlt] at h2
    | some z =>
      cases a with
      | none => rfl
      | some x =>
        simp only [optDateBle, optDateBlt] at h1 h2 ⊢
        exact PyDate.ble_blt_trans h1 h2

theorem charListLt_irrefl : ∀ l : List Char, charListLt l l = false := by
  intro l
  induction l with
  | nil => rfl
  | cons c cs ih => simp [charListLt, ih]

theorem charListLt_asymm : ∀ a b : List Char, charListLt a b = true →
    charListLt b a = false := by
  intro a
  induction a with
  | nil =>
    intro b h
    cases b with
    | nil => simp [charListLt] at h
    | cons d ds => rfl
  | cons c cs ih =>
    intro b h
    cases b with
    | nil => simp [charListLt] at h
    | cons d ds =>
      simp only [charListLt] at h ⊢
      by_cases h1 : c.toNat < d.toNat
      · have h2 : ¬ d.toNat < c.toNat := by omega
        simp [h1, h2]
      · by_cases h2 : d.toNat < c.toNat
        · simp [h1, h2] at h
        · simp only [h1, h2, if_false] at h ⊢
          exact ih ds h

theorem charListLt_trans : ∀ a b c : List Char, charListLt a b = true →
    charListLt b c = true → charListLt a c = true := by
  intro a
  induction a with
  | nil =>
    intro b c h1 h2
    cases b with
    | nil => exact h2
    | cons d ds =>
      cases c with
      | nil => simp [charListLt] at h2
      | cons e es => rfl
  | cons x xs ih =>
    intro b c h1 h2
    cases b with
    | nil => simp [charListLt] at h1
    | cons d ds =>
      cases c with
      | nil => simp [charListLt] at h2
      | cons e es =>
        simp only [charListLt] at h1 h2 ⊢
        by_cases hxd : x.toNat < d.toNat
        · by_cases hde : d.toNat < e.toNat
          · have : x.toNat < e.toNat := by omega
            simp [this]
          · by_cases hed : e.toNat < d.toNat
            · simp [hde, hed] at h2
            · have : x.toNat < e.toNat := by omega
              simp [this]
        · by_cases hdx : d.toNat < x.toNat
          · simp [hxd, hdx] at h1
          · by_cases hde : d.toNat < e.toNat
            · have : x.toNat < e.toNat := by omega
              simp [this]
            · by_cases hed : e.toNat < d.toNat
              · simp [hde, hed] at h2
              · have hxe : ¬ x.toNat < e.toNat := by omega
                have hex : ¬ e.toNat < x.toNat := by omega
                simp only [hxd, hdx, if_false] at h1
                simp only [hde, hed, if_false] at h2
                simp only [hxe, hex, if_false]
                exact ih ds es h1 h2

theorem charListLt_conn : ∀ a b : List Char, charListLt a b = false →
    charListLt b a = false → a = b := by
  intro a
  induction a with
  | nil =>
    intro b h1 _
    cases b with
    | nil => rfl
    | cons d ds => simp [charListLt] at h1
  | cons c cs ih =>
    intro b h1 h2
    cases b with
    | nil => simp [charListLt] at h2
    | cons d ds =>
      simp only [charListLt] at h1 h2
      by_cases hcd : c.toNat < d.toNat
      · simp [hcd] at h1
      · by_cases hdc : d.toNat < c.toNat
        · simp [hcd, hdc] at h2
        · simp only [hcd, hdc, if_false] at h1 h2
          have htn : c.toNat = d.toNat := by omega
          have hval : c = d := Char.ext (UInt32.ext htn)
          rw [hval, ih ds h1 h2]

theorem strBle_total (a b : String) : strBle a b = true ∨ strBle b a = true := by
  unfold strBle
  cases h : charListLt b.data a.data with
  | false => simp
  | true => simp [charListLt_asymm _ _ h]

theorem strBle_trans {a b c : String} (h1 : strBle a b = true)
    (h2 : strBle b c = true) : strBle a c = true := by
  unfold strBle at h1 h2 ⊢
  simp only [Bool.not_eq_true', Bool.not_eq_false] at *
  cases hab : charListLt a.data b.data with
  | true =>
    cases hca : charListLt c.data a.data with
    | true => exact absurd (charListLt_trans _ _ _ hca hab) (by simp [h2])
    | false => rfl
  | false =>
    have : a.data = b.data := charListLt_conn _ _ hab h1
    rw [this]
    exact h2

theorem nameLe_total (x y : FoodItem) : nameLe x y = true ∨ nameLe y x = true :=
  strBle_total x.name y.name

theorem nameLe_trans {x y z : FoodItem} (h1 : nameLe x y = true)
    (h2 : nameLe y z = true) : nameLe x z = true :=
  strBle_trans h1 h2

theorem nameLe_false_ne {x y : FoodItem} (h : nameLe x y = false) :
    y.name ≠ x.name := by
  intro hn
  unfold nameLe strBle at h
  simp only [Bool.not_eq_false'] at h
  rw [hn] at h
  exact absurd h (by simp [charListLt_irrefl])

theorem expiryLe_total (x y : FoodItem) : expiryLe x y = true ∨ expiryLe y x = true :=
  optDateBle_total x.expiry y.expiry

theorem expiryLe_trans {x y z : FoodItem} (h1 : expiryLe x y = true)
    (h2 : expiryLe y z = true) : expiryLe x z = true :=
  optDateBle_trans h1 h2

/-! ### Stable insertion sort: permutation, sortedness, stability -/

theorem mem_insertLe {le : α → α → Bool} {x a : α} :
    ∀ {l : List α}, a ∈ insertLe le x l ↔ a = x ∨ a ∈ l := by
  intro l
  induction l with
  | nil => simp [insertLe]
  | cons y ys ih =>
    unfold insertLe
    by_cases h : le x y = true
    · rw [if_pos h]
      simp [List.mem_cons]
    · rw [if_neg h]
      simp only [List.mem_cons, ih]
      tauto

theorem insertLe_perm (le : α → α → Bool) (x : α) :
    ∀ l : List α, (insertLe le x l).Perm (x :: l) := by
  intro l
  induction l with
  | nil => exact List.Perm.refl _
  | cons y ys ih =>
    by_cases h : le x y = true
    · simp [insertLe, h]
    · simp only [insertLe, h, if_false]
      exact (ih.cons y).trans (List.Perm.swap x y ys)

theorem sortLe_perm (le : α → α → Bool) : ∀ l : List α, (sortLe le l).Perm l := by
  intro l
  induction l with
  | nil => exact List.Perm.refl _
  | cons x xs ih => exact (insertLe_perm le x (sortLe le xs)).trans (ih.cons x)

theorem pairwise_insertLe {le : α → α → Bool}
    (htot : ∀ a b, le a b = true ∨ le b a = true)
    (htrans : ∀ a b c, le a b = true → le b c = true → le a c = true)
    (x : α) : ∀ {l : List α}, List.Pairwise (fun a b => le a b = true) l →
    List.Pairwise (fun a b => le a b = true) (insertLe le x l) := by
  intro l
  induction l with
  | nil => intro _; simp [insertLe]
  | cons y ys ih =>
    intro hp
    by_cases h : le x y = true
    · simp only [insertLe, h, if_true]
      refine List.Pairwise.cons ?_ hp
      intro z hz
      rcases List.mem_cons.mp hz with hz | hz
      · rw [hz]; exact h
      · exact htrans x y z h (List.rel_of_pairwise_cons hp hz)
    · simp only [insertLe, h, if_false]
      have hyx : le y x = true := (htot x y).resolve_left h
      refine List.Pairwise.cons ?_ (ih hp.tail)
      intro z hz
      rcases mem_insertLe.mp hz with hz | hz
      · rw [hz]; exact hyx
      · exact List.rel_of_pairwise_cons hp hz

theorem pairwise_sortLe {le : α → α → Bool}
    (htot : ∀ a b, le a b = true ∨ le b a = true)
    (htrans : ∀ a b c, le a b = true → le b c = true → le a c = true) :
    ∀ l : List α, List.Pairwise (fun a b => le a b = true) (sortLe le l) := by
  intro l
  induction l with
  | nil => exact List.Pairwise.nil
  | cons x xs ih => exact pairwise_insertLe htot htrans x ih

theorem sortLe_eq_self {le : α → α → Bool} :
    ∀ {l : List α}, List.Chain' (fun a b => le a b = true) l → sortLe le l = l := by
  intro l
  induction l with
  | nil => intro _; rfl
  | cons x xs ih =>
    intro h
    have hxs : sortLe le xs = xs := ih h.tail
    show insertLe le x (sortLe le xs) = x :: xs
    rw [hxs]
    cases xs with
    | nil => rfl
    | cons y ys =>
      have hxy : le x y = true := (List.chain'_cons.mp h).1
      simp [insertLe, hxy]

/-! ### `groupby` of maximal equal-key runs -/

theorem groupRunsAux_fst (key : α → List Char) (x : α) :
    ∀ xs : List α, (groupRunsAux key x xs).1.1 = x := by
  intro xs
  cases xs with
  | nil => rfl
  | cons y ys =>
    simp only [groupRunsAux]
    split
    · rfl
    · rfl

theorem groupRunsAux_flatten (key : α → List Char) :
    ∀ (xs : List α) (x : α),
      flattenGroups ((groupRunsAux key x xs).1 :: (groupRunsAux key x xs).2) = x :: xs := by
  intro xs
  induction xs with
  | nil => intro x; rfl
  | cons y ys ih =>
    intro x
    have hy := ih y
    rw [flattenGroups, groupRunsAux_fst key y ys, List.cons.injEq] at hy
    simp only [groupRunsAux]
    by_cases h : key x = key y
    · rw [if_pos h]
      simp only [flattenGroups, List.cons_append]
      rw [hy.2]
    · rw [if_neg h]
      simp only [flattenGroups, List.nil_append]
      rw [groupRunsAux_fst key y ys, hy.2]

theorem groupRuns_flatten (key : α → List Char) :
    ∀ l : List α, flattenGroups (groupRuns key l) = l := by
  intro l
  cases l with
  | nil => rfl
  | cons x xs => exact groupRunsAux_flatten key xs x

theorem groupRunsAux_keys (key : α → List Char) :
    ∀ (xs : List α) (x : α),
      (∀ y ∈ (groupRunsAux key x xs).1.2, key y = key x) ∧
      (∀ g ∈ (groupRunsAux key x xs).2, ∀ y ∈ g.2, key y = key g.1) := by
  intro xs
  induction xs with
  | nil =>
    intro x
    refine ⟨?_, ?_⟩
    · intro y hy; cases hy
    · intro g hg; cases hg
  | cons y ys ih =>
    intro x
    have hy := ih y
    simp only [groupRunsAux]
    by_cases h : key x = key y
    · simp only [h, if_true]
      constructor
      · intro z hz
        rcases List.mem_cons.mp hz with hz | hz
        · rw [hz]
        · exact hy.1 z hz
      · exact hy.2
    · simp only [h, if_false]
      constructor
      · intro z hz; cases hz
      · intro g hg
        rcases List.mem_cons.mp hg with hg | hg
        · intro z hz
          rw [hg]
          rw [groupRunsAux_fst key y ys]
          exact hy.1 z (by rw [← hg]; exact hz)
        · exact hy.2 g hg

theorem groupRuns_keys (key : α → List Char) {l : List α} :
    ∀ g ∈ groupRuns key l, ∀ y ∈ g.2, key y = key g.1 := by
  cases l with
  | nil => intro g hg; cases hg
  | cons x xs =>
    intro g hg
    rcases List.mem_cons.mp hg with hg | hg
    · intro y hy
      rw [hg]
      rw [groupRunsAux_fst key x xs]
      exact (groupRunsAux_keys key xs x).1 y (by rw [← hg]; exact hy)
    · exact (groupRunsAux_keys key xs x).2 g hg

theorem groupRunsAux_chain (key : α → List Char) :
    ∀ (xs : List α) (x : α),
      List.Chain' (fun g h => key g.1 ≠ key h.1)
        ((groupRunsAux key x xs).1 :: (groupRunsAux key x xs).2) := by
  intro xs
  induction xs with
  | nil => intro x; exact List.chain'_singleton _
  | cons y ys ih =>
    intro x
    have hy := ih y
    simp only [groupRunsAux]
    by_cases h : key x = key y
    · simp only [h, if_true]
      cases hgs : (groupRunsAux key y ys).2 with
      | nil => simp
      | cons g gs =>
        rw [hgs] at hy
        refine List.chain'_cons.mpr ⟨?_, (List.chain'_cons.mp hy).2⟩
        have hhead : key (groupRunsAux key y ys).1.1 ≠ key g.1 := by
          have := (List.chain'_cons.mp hy).1
          exact this
        rw [groupRunsAux_fst key y ys] at hhead
        simpa [h] using hhead
    · simp only [h, if_false]
      refine List.chain'_cons.mpr ⟨?_, hy⟩
      rw [groupRunsAux_fst key y ys]
      exact h

theorem groupRuns_chain (key : α → List Char) (l : List α) :
    List.Chain' (fun g h => key g.1 ≠ key h.1) (groupRuns key l) := by
  cases l with
  | nil => simp [groupRuns]
  | cons x xs => exact groupRunsAux_chain key xs x

theorem groupRunsAux_heads_sublist (key : α → List Char) :
    ∀ (xs : List α) (x : α),
      (((groupRunsAux key x xs).1 :: (groupRunsAux key x xs).2).map
        (fun g => g.1)).Sublist (x :: xs) := by
  intro xs
  induction xs with
  | nil => intro x; simp [groupRunsAux]
  | cons y ys ih =>
    intro x
    have hy := ih y
    rw [List.map_cons, groupRunsAux_fst key y ys] at hy
    have htail : ((groupRunsAux key y ys).2.map (fun g => g.1)).Sublist ys :=
      List.cons_sublist_cons.mp hy
    simp only [groupRunsAux]
    by_cases h : key x = key y
    · rw [if_pos h]
      rw [List.map_cons]
      exact List.Sublist.cons₂ x (htail.cons y)
    · rw [if_neg h]
      rw [List.map_cons, List.map_cons, groupRunsAux_fst key y ys]
      exact List.Sublist.cons₂ x (List.Sublist.cons₂ y htail)

theorem groupRuns_heads_sublist (key : α → List Char) :
    ∀ l : List α, ((groupRuns key l).map (fun g => g.1)).Sublist l := by
  intro l
  cases l with
  | nil => simp [groupRuns]
  | cons x xs => exact groupRunsAux_heads_sublist key xs x

theorem mem_flattenGroups_sublist {gs : List (α × List α)} {g : α × List α}
    (hg : g ∈ gs) : (g.1 :: g.2).Sublist (flattenGroups gs) := by
  induction gs with
  | nil => cases hg
  | cons h hs ih =>
    rcases List.mem_cons.mp hg with hg | hg
    · subst hg
      simp only [flattenGroups]
      exact List.Sublist.cons₂ g.1 (List.sublist_append_left g.2 (flattenGroups hs))
    · simp only [flattenGroups]
      exact ((ih hg).trans (List.sublist_append_right h.2 (flattenGroups hs))).cons h.1

theorem groupRuns_group_sublist (key : α → List Char) {l : List α} :
    ∀ g ∈ groupRuns key l, (g.1 :: g.2).Sublist l := by
  intro g hg
  have h := mem_flattenGroups_sublist hg
  rwa [groupRuns_flatten key l] at h

theorem groupRunsAux_of_chain_ne (key : α → List Char) :
    ∀ (xs : List α) (x : α), List.Chain' (fun a b => key a ≠ key b) (x :: xs) →
      groupRunsAux key x xs = ((x, []), xs.map (fun z => (z, []))) := by
  intro xs
  induction xs with
  | nil => intro x _; rfl
  | cons y ys ih =>
    intro x h
    have h1 : key x ≠ key y := (List.chain'_cons.mp h).1
    simp only [groupRunsAux, if_neg h1]
    rw [ih y (List.chain'_cons.mp h).2]
    rfl

theorem groupRuns_of_chain_ne (key : α → List Char) {l : List α}
    (h : List.Chain' (fun a b => key a ≠ key b) l) :
    groupRuns key l = l.map (fun x => (x, [])) := by
  cases l with
  | nil => rfl
  | cons x xs =>
    show (groupRunsAux key x xs).1 :: (groupRunsAux key x xs).2 = _
    rw [groupRunsAux_of_chain_ne key xs x h]
    rfl

/-! ### Stability of the name sort: the subsequence of any fixed name is
preserved -/

theorem filter_insertLe_name (n : String) (x : FoodItem) (l : List FoodItem) :
    (insertLe nameLe x l).filter (fun z => decide (z.name = n)) =
      if x.name = n then x :: l.filter (fun z => decide (z.name = n))
      else l.filter (fun z => decide (z.name = n)) := by
  induction l with
  | nil =>
    by_cases hx : x.name = n
    · simp [insertLe, List.filter_cons, hx]
    · simp [insertLe, List.filter_cons, hx]
  | cons y ys ih =>
    unfold insertLe
    by_cases hxy : nameLe x y = true
    · rw [if_pos hxy]
      by_cases hx : x.name = n
      · simp [List.filter_cons, hx]
      · simp [List.filter_cons, hx]
    · rw [if_neg hxy]
      have hyn : y.name ≠ x.name := nameLe_false_ne (Bool.not_eq_true _ ▸ hxy)
      by_cases hx : x.name = n
      · have hy : ¬ (y.name = n) := by rw [hx] at hyn; exact hyn
        simp [List.filter_cons, hy, hx, ih]
      · by_cases hy : y.name = n
        · simp [List.filter_cons, hy, hx, ih]
        · simp [List.filter_cons, hy, hx, ih]

theorem filter_sortLe_name (n : String) (l : List FoodItem) :
    (sortLe nameLe l).filter (fun z => decide (z.name = n)) =
      l.filter (fun z => decide (z.name = n)) := by
  induction l with
  | nil => rfl
  | cons x xs ih =>
    show (insertLe nameLe x (sortLe nameLe xs)).filter _ = _
    rw [filter_insertLe_name, ih, List.filter_cons]
    by_cases hx : x.name = n
    · simp [hx]
    · simp [hx]

/-! ### The behaviour of Python `min` -/

theorem optDateBlt_to_ble {a b : Option PyDate} (h : optDateBlt a b = true) :
    optDateBle a b = true := by
  cases a with
  | none => rfl
  | some x =>
    cases b with
    | none => simp [optDateBlt] at h
    | some y => exact PyDate.blt_to_ble h

theorem pyMinDates_fold_spec :
    ∀ (ds : List (Option PyDate)) (d : Option PyDate),
      (ds.foldl (fun best x => if optDateBlt x best then x else best) d) ∈ d :: ds ∧
      ∀ q ∈ d :: ds,
        optDateBle (ds.foldl (fun best x => if optDateBlt x best then x else best) d) q
          = true := by
  intro ds
  induction ds with
  | nil =>
    intro d
    refine ⟨List.mem_singleton.mpr rfl, ?_⟩
    intro q hq
    rw [List.mem_singleton.mp hq]
    exact optDateBle_refl _
  | cons x ds ih =>
    intro d
    rw [List.foldl_cons]
    by_cases h : optDateBlt x d = true
    · rw [if_pos h]
      obtain ⟨hmem, hble⟩ := ih x
      refine ⟨?_, ?_⟩
      · rcases List.mem_cons.mp hmem with hm | hm
        · rw [hm]; exact List.mem_cons_of_mem d (List.mem_cons_self x ds)
        · exact List.mem_cons_of_mem d (List.mem_cons_of_mem x hm)
      · intro q hq
        rcases List.mem_cons.mp hq with hq | hq
        · rw [hq]
          exact optDateBlt_to_ble
            (optDateBle_blt_trans (hble x (List.mem_cons_self x ds)) h)
        · exact hble q hq
    · rw [if_neg h]
      obtain ⟨hmem, hble⟩ := ih d
      have hdx : optDateBle d x = true := optDateBlt_false_ble (Bool.not_eq_true _ ▸ h)
      refine ⟨?_, ?_⟩
      · rcases List.mem_cons.mp hmem with hm | hm
        · rw [hm]; exact List.mem_cons_self d _
        · exact List.mem_cons_of_mem d (List.mem_cons_of_mem x hm)
      · intro q hq
        rcases List.mem_cons.mp hq with hq | hq
        · rw [hq]
          exact hble d (List.mem_cons_self d ds)
        · rcases List.mem_cons.mp hq with hq | hq
          · rw [hq]
            exact optDateBle_trans (hble d (List.mem_cons_self d ds)) hdx
          · exact hble q (List.mem_cons_of_mem d hq)

theorem pyMinDates_spec {ds : List (Option PyDate)} (h : ds ≠ []) :
    pyMinDates ds ∈ ds ∧ ∀ q ∈ ds, optDateBle (pyMinDates ds) q = true := by
  cases ds with
  | nil => exact absurd rfl h
  | cons d rest => exact pyMinDates_fold_spec rest d

theorem PyDate.blt_ble_trans {a b c : PyDate} (h1 : PyDate.blt a b = true)
    (h2 : PyDate.ble b c = true) : PyDate.blt a c = true := by
  simp only [PyDate.ble, PyDate.blt, decide_eq_true_eq] at h1 h2 ⊢
  omega

theorem pyMinByDate_spec :
    ∀ (ps : List (PyDate × RecipeItem)) (p : PyDate × RecipeItem),
      ∃ l1 l2, p :: ps = l1 ++ pyMinByDate p ps :: l2 ∧
        (∀ q ∈ p :: ps, PyDate.ble (pyMinByDate p ps).1 q.1 = true) ∧
        (∀ q ∈ l1, PyDate.blt (pyMinByDate p ps).1 q.1 = true) := by
  intro ps
  induction ps with
  | nil =>
    intro p
    refine ⟨[], [], rfl, ?_, ?_⟩
    · intro q hq
      rw [List.mem_singleton.mp hq]
      exact PyDate.ble_refl _
    · intro q hq; cases hq
  | cons x ps ih =>
    intro p
    have hstep : pyMinByDate p (x :: ps) =
        pyMinByDate (if PyDate.blt x.1 p.1 then x else p) ps := by
      simp [pyMinByDate, List.foldl_cons]
    by_cases h : PyDate.blt x.1 p.1 = true
    · rw [hstep, if_pos h]
      obtain ⟨l1, l2, heq, hble, hblt⟩ := ih x
      have hrp : PyDate.blt (pyMinByDate x ps).1 p.1 = true :=
        PyDate.blt_ble_trans
          (PyDate.ble_blt_trans (hble x (List.mem_cons_self x ps)) h) (PyDate.ble_refl _)
      refine ⟨p :: l1, l2, ?_, ?_, ?_⟩
      · rw [List.cons_append, ← heq]
      · intro q hq
        rcases List.mem_cons.mp hq with hq | hq
        · rw [hq]; exact PyDate.blt_to_ble hrp
        · exact hble q hq
      · intro q hq
        rcases List.mem_cons.mp hq with hq | hq
        · rw [hq]; exact hrp
        · exact hblt q hq
    · rw [hstep, if_neg h]
      obtain ⟨l1, l2, heq, hble, hblt⟩ := ih p
      have hpx : PyDate.ble p.1 x.1 = true :=
        PyDate.blt_false_ble (Bool.not_eq_true _ ▸ h)
      cases l1 with
      | nil =>
        have hrp : pyMinByDate p ps = p := (List.cons.injEq _ _ _ _ |>.mp heq.symm).1
        refine ⟨[], x :: ps, ?_, ?_, ?_⟩
        · rw [List.nil_append, hrp]
        · intro q hq
          rcases List.mem_cons.mp hq with hq | hq
          · rw [hq]
            exact hble p (List.mem_cons_self p ps)
          · rcases List.mem_cons.mp hq with hq | hq
            · rw [hq]
              exact PyDate.ble_trans (hble p (List.mem_cons_self p ps)) hpx
            · exact hble q (List.mem_cons_of_mem p hq)
        · intro q hq; cases hq
      | cons a l1t =>
        have hinj := List.cons.injEq _ _ _ _ |>.mp heq
        have hap : a = p := hinj.1.symm
        have hps : ps = l1t ++ pyMinByDate p ps :: l2 := hinj.2
        have hrp : PyDate.blt (pyMinByDate p ps).1 p.1 = true := by
          have := hblt a (List.mem_cons_self a l1t)
          rwa [hap] at this
        have hrx : PyDate.blt (pyMinByDate p ps).1 x.1 = true :=
          PyDate.blt_ble_trans hrp hpx
        refine ⟨p :: x :: l1t, l2, ?_, ?_, ?_⟩
        · rw [List.cons_append, List.cons_append, ← hps]
        · intro q hq
          rcases List.mem_cons.mp hq with hq | hq
          · rw [hq]; exact PyDate.blt_to_ble hrp
          · rcases List.mem_cons.mp hq with hq | hq
            · rw [hq]; exact PyDate.blt_to_ble hrx
            · exact hble q (List.mem_cons_of_mem p hq)
        · intro q hq
          rcases List.mem_cons.mp hq with hq | hq
          · rw [hq]; exact hrp
          · rcases List.mem_cons.mp hq with hq | hq
            · rw [hq]; exact hrx
            · exact hblt q (List.mem_cons_of_mem a hq)

theorem filterMap_split {f : α → Option β} :
    ∀ {l : List α} {L1 : List β} {b : β} {L2 : List β},
      l.filterMap f = L1 ++ b :: L2 →
      ∃ l1 a l2, l = l1 ++ a :: l2 ∧ f a = some b ∧
        l1.filterMap f = L1 ∧ l2.filterMap f = L2 := by
  intro l
  induction l with
  | nil =>
    intro L1 b L2 h
    rw [List.filterMap_nil] at h
    exact absurd h.symm (List.append_ne_nil_of_right_ne_nil L1 (List.cons_ne_nil b L2))
  | cons x xs ih =>
    intro L1 b L2 h
    rw [List.filterMap_cons] at h
    cases hfx : f x with
    | none =>
      rw [hfx] at h
      obtain ⟨l1, a, l2, hl, hfa, h1, h2⟩ := ih h
      exact ⟨x :: l1, a, l2, by rw [hl, List.cons_append],
        hfa, by rw [List.filterMap_cons, hfx, h1], h2⟩
    | some c =>
      rw [hfx] at h
      cases L1 with
      | nil =>
        rw [List.nil_append] at h
        have hinj := List.cons.injEq _ _ _ _ |>.mp h
        exact ⟨[], x, xs, rfl, by rw [hfx, hinj.1], rfl, hinj.2⟩
      | cons c0 L1t =>
        rw [List.cons_append] at h
        have hinj := List.cons.injEq _ _ _ _ |>.mp h
        obtain ⟨l1, a, l2, hl, hfa, h1, h2⟩ := ih hinj.2
        exact ⟨x :: l1, a, l2, by rw [hl, List.cons_append], hfa,
          by rw [List.filterMap_cons, hfx, h1, hinj.1], h2⟩

theorem find?_first {p : α → Bool} :
    ∀ {l : List α} {z : α}, l.find? p = some z →
      p z = true ∧ ∃ l1 l2, l = l1 ++ z :: l2 ∧ ∀ w ∈ l1, p w = false := by
  intro l
  induction l with
  | nil => intro z h; cases h
  | cons x xs ih =>
    intro z h
    rw [List.find?_cons] at h
    cases hp : p x with
    | true =>
      rw [hp] at h
      have hz : x = z := by cases h; rfl
      subst hz
      exact ⟨hp, [], xs, rfl, by intro w hw; cases hw⟩
    | false =>
      rw [hp] at h
      obtain ⟨hz, l1, l2, hl, hl1⟩ := ih h
      refine ⟨hz, x :: l1, l2, by rw [hl, List.cons_append], ?_⟩
      intro w hw
      rcases List.mem_cons.mp hw with hw | hw
      · rw [hw]; exact hp
      · exact hl1 w hw

theorem matchDates_none {food : List FoodItem} :
    ∀ {ings : List FoodItem}, (∃ y ∈ ings, food.find? (itemMatches y) = none) →
      matchDates food ings = none := by
  intro ings
  induction ings with
  | nil => intro h; obtain ⟨y, hy, -⟩ := h; cases hy
  | cons y ys ih =>
    intro h
    obtain ⟨w, hw, hfw⟩ := h
    rcases List.mem_cons.mp hw with hw | hw
    · subst hw
      simp [matchDates, hfw]
    · cases hfy : food.find? (itemMatches y) with
      | none => simp [matchDates, hfy]
      | some z => simp [matchDates, hfy, ih ⟨w, hw, hfw⟩]

/-! ### Claim theorems -/

/-- Claim C8: the matching predicate of `_get_cooking_date` checks only
name equality and sufficient quantity, never the unit kind: it is
invariant under changing either entry's kind, and an available entry of
any kind satisfies a required ingredient of the same name and sufficient
quantity. -/
theorem C8_matching_ignores_kind (y z : FoodItem) (k1 k2 : String)
    (food : List FoodItem) :
    itemMatches { y with type := k1 } { z with type := k2 } = itemMatches y z ∧
    (itemMatches y z = true ↔ z.name = y.name ∧ z.amount ≥ y.amount) ∧
    ((food.find? (itemMatches y)).isSome ↔ ∃ w ∈ food, itemMatches y w = true) := by
  refine ⟨rfl, ?_, ?_⟩
  · simp [itemMatches]
  · rw [List.find?_isSome]

theorem PyDate.ble_dayBefore (t : PyDate) : PyDate.ble t (dayBefore t) = false := by
  unfold dayBefore
  by_cases h1 : t.day > 1
  · rw [if_pos h1]
    simp only [PyDate.ble, decide_eq_false_iff_not]
    omega
  · rw [if_neg h1]
    by_cases h2 : t.month > 1
    · rw [if_pos h2]
      simp only [PyDate.ble, decide_eq_false_iff_not]
      omega
    · rw [if_neg h2]
      simp only [PyDate.ble, decide_eq_false_iff_not]
      omega

/-- Claim C7: an entry whose expiry equals today passes the
`x.expiry >= today` filter of `todays_food`, and an entry whose expiry
is exactly one calendar day before today is dropped by it — the expiry
boundary is inclusive. -/
theorem C7_expiry_boundary (today : PyDate) (items : List FoodItem)
    (e : FoodItem) (he : e ∈ items) :
    (e.expiry = some today → e ∈ edible_food today items) ∧
    (e.expiry = some (dayBefore today) → e ∉ edible_food today items) := by
  constructor
  · intro hx
    unfold edible_food
    refine List.mem_filter.mpr ⟨?_, ?_⟩
    · exact ((sortLe_perm expiryLe items).mem_iff).mpr he
    · simp [expiryGe, hx, PyDate.ble_refl]
  · intro hx hmem
    have h := (List.mem_filter.mp hmem).2
    rw [hx] at h
    simp only [expiryGe] at h
    rw [PyDate.ble_dayBefore] at h
    cases h

/-- Witness for C7 at a concrete fridge: the entry expiring exactly
today is kept by the filter. -/
theorem C7_witness :
    (⟨1, "of", "milk", some ⟨2014, 1, 1⟩⟩ : FoodItem) ∈
      edible_food ⟨2014, 1, 1⟩ [⟨1, "of", "milk", some ⟨2014, 1, 1⟩⟩] :=
  (C7_expiry_boundary ⟨2014, 1, 1⟩ _ _ (by decide)).1 (by decide)

/-- Claim C4 counterexample: an entry carrying no expiry date IS
filtered out by `todays_food` (Python 2 orders `None` below every date,
so `x.expiry >= today` is false), contradicting the claim that such
entries are never filtered. -/
theorem C4_counterexample :
    todays_food ⟨2014, 1, 1⟩ [⟨1, "of", "milk", none⟩] = [] ∧
    (⟨1, "of", "milk", none⟩ : FoodItem) ∉
      edible_food ⟨2014, 1, 1⟩ [⟨1, "of", "milk", none⟩] := by
  decide

/-- Claim C4 (amended): `todays_food` keeps exactly those entries whose
expiry is present and not strictly before today; entries with no expiry
are always removed (without crashing), because Python 2 compares `None`
below every date. -/
theorem C4_usable_food (today : PyDate) (items : List FoodItem) :
    todays_food today items = compact_food_list (edible_food today items) ∧
    ∀ x : FoodItem, x ∈ edible_food today items ↔
      x ∈ items ∧ ∃ d, x.expiry = some d ∧ PyDate.ble today d = true := by
  refine ⟨rfl, ?_⟩
  intro x
  unfold edible_food
  rw [List.mem_filter, (sortLe_perm expiryLe items).mem_iff]
  refine and_congr_right fun _ => ?_
  cases hx : x.expiry with
  | none => simp [expiryGe]
  | some d => simp [expiryGe]

/-- Claim C3 counterexample: three entries of name `a` with kinds
`of`, `grams`, `of` (in that order) are returned unmerged by
`_compact_food_list` — the two `(a, of)` entries are NOT merged into a
single entry, because the sort is by name only and `groupby` merges only
consecutive equal keys. -/
theorem C3_counterexample :
    compact_food_list
        [⟨1, "of", "a", none⟩, ⟨1, "grams", "a", none⟩, ⟨1, "of", "a", none⟩] =
      [⟨1, "of", "a", none⟩, ⟨1, "grams", "a", none⟩, ⟨1, "of", "a", none⟩] ∧
    (compact_food_list
        [⟨1, "of", "a", none⟩, ⟨1, "grams", "a", none⟩, ⟨1, "of", "a", none⟩]).countP
      (fun x => decide (x.name = "a") && decide (x.type = "of")) = 2 := by
  decide

/-- Claim C10 counterexample: with entries `("ab", kind "c")` and
`("a", kind "bc")` the concatenated `name + type` keys collide, the two
entries are merged, and the surviving representative carries expiry
2014-01-10 although the entry merged into it expires 2014-01-05 — the
output expiry is not the minimum over the merged entries. -/
theorem C10_counterexample :
    todays_food ⟨2014, 1, 1⟩
        [⟨1, "c", "ab", some ⟨2014, 1, 5⟩⟩, ⟨1, "bc", "a", some ⟨2014, 1, 10⟩⟩] =
      [⟨2, "bc", "a", some ⟨2014, 1, 10⟩⟩] ∧
    groupRuns nameKey (sortLe nameLe (edible_food ⟨2014, 1, 1⟩
        [⟨1, "c", "ab", some ⟨2014, 1, 5⟩⟩, ⟨1, "bc", "a", some ⟨2014, 1, 10⟩⟩])) =
      [(⟨1, "bc", "a", some ⟨2014, 1, 10⟩⟩, [⟨1, "c", "ab", some ⟨2014, 1, 5⟩⟩])] ∧
    PyDate.blt ⟨2014, 1, 5⟩ ⟨2014, 1, 10⟩ = true := by
  decide

/-- Claim C5 counterexample: `_compact_food_list` mutates, in place, the
amount of each group's first item, and those objects are the fridge's
own entries.  With two cheese entries (2 + 3 slices) and a recipe
needing 7 slices, the first `todays_recipe` call returns the sentinel
but rewrites the fridge to (5, 3); the second call then sees 8 slices
and returns the recipe — same inputs, different result, fridge
changed. -/
theorem C5_counterexample :
    (todays_recipe_state ⟨2014, 1, 1⟩
        [⟨2, "slices", "cheese", some ⟨2014, 6, 1⟩⟩,
         ⟨3, "slices", "cheese", some ⟨2014, 6, 1⟩⟩]
        [⟨"R", [⟨7, "slices", "cheese", none⟩]⟩]).1 = RecipeItem.noRecipe ∧
    (todays_recipe_state ⟨2014, 1, 1⟩
        [⟨2, "slices", "cheese", some ⟨2014, 6, 1⟩⟩,
         ⟨3, "slices", "cheese", some ⟨2014, 6, 1⟩⟩]
        [⟨"R", [⟨7, "slices", "cheese", none⟩]⟩]).2 =
      [⟨5, "slices", "cheese", some ⟨2014, 6, 1⟩⟩,
       ⟨3, "slices", "cheese", some ⟨2014, 6, 1⟩⟩] ∧
    (todays_recipe_state ⟨2014, 1, 1⟩
        ((todays_recipe_state ⟨2014, 1, 1⟩
          [⟨2, "slices", "cheese", some ⟨2014, 6, 1⟩⟩,
           ⟨3, "slices", "cheese", some ⟨2014, 6, 1⟩⟩]
          [⟨"R", [⟨7, "slices", "cheese", none⟩]⟩]).2)
        [⟨"R", [⟨7, "slices", "cheese", none⟩]⟩]).1 =
      ⟨"R", [⟨7, "slices", "cheese", none⟩]⟩ := by
  decide

/-- Claim C6: `_compact_food_list` is idempotent under structural list
equality: compacting an already-compacted list returns it unchanged,
because the output is name-sorted with pairwise-distinct adjacent keys,
so every group of the second pass is a singleton. -/
theorem C6_aggregate_idempotent (l : List FoodItem) :
    compact_food_list (compact_food_list l) = compact_food_list l := by
  have hm : compact_food_list l =
      (groupRuns nameKey (sortLe nameLe l)).map
        (fun g => { g.1 with amount := g.1.amount + (g.2.map (fun y => y.amount)).sum }) := rfl
  have hs : List.Pairwise (fun a b => nameLe a b = true) (sortLe nameLe l) :=
    pairwise_sortLe nameLe_total (fun _ _ _ h1 h2 => nameLe_trans h1 h2) l
  have hheads : List.Pairwise (fun a b => nameLe a b = true)
      ((groupRuns nameKey (sortLe nameLe l)).map (fun g => g.1)) :=
    List.Pairwise.sublist (groupRuns_heads_sublist nameKey (sortLe nameLe l)) hs
  have hmp : List.Pairwise (fun a b => nameLe a b = true) (compact_food_list l) := by
    rw [hm, List.pairwise_map]
    rw [List.pairwise_map] at hheads
    exact hheads
  have hsorted : sortLe nameLe (compact_food_list l) = compact_food_list l :=
    sortLe_eq_self hmp.chain'
  have hchain : List.Chain' (fun a b => nameKey a ≠ nameKey b) (compact_food_list l) := by
    rw [hm, List.chain'_map]
    exact groupRuns_chain nameKey (sortLe nameLe l)
  show (groupRuns nameKey (sortLe nameLe (compact_food_list l))).map
      (fun g => { g.1 with amount := g.1.amount + (g.2.map (fun y => y.amount)).sum })
    = compact_food_list l
  rw [hsorted, groupRuns_of_chain_ne nameKey hchain, List.map_map]
  have hid : ∀ x ∈ compact_food_list l,
      ((fun g : FoodItem × List FoodItem =>
        { g.1 with amount := g.1.amount + (g.2.map (fun y => y.amount)).sum }) ∘
        (fun x => (x, []))) x = x := by
    intro x _
    show ({ x with amount := x.amount + (([] : List FoodItem).map (fun y => y.amount)).sum }) = x
    cases x
    simp
  rw [List.map_congr_left hid]
  simp

theorem key_eq_name_type {x y : FoodItem} (hk : nameKey x = nameKey y)
    (hn : x.name = y.name) : x.type = y.type := by
  unfold nameKey at hk
  rw [hn] at hk
  exact String.ext (List.append_cancel_left hk)

theorem sumNK_append (n k : String) (l1 l2 : List FoodItem) :
    sumNK n k (l1 ++ l2) = sumNK n k l1 + sumNK n k l2 := by
  unfold sumNK
  rw [List.filter_append, List.map_append, List.sum_append]

theorem sumNK_cons (n k : String) (x : FoodItem) (l : List FoodItem) :
    sumNK n k (x :: l) =
      (if x.name = n ∧ x.type = k then x.amount else 0) + sumNK n k l := by
  unfold sumNK
  rw [List.filter_cons]
  by_cases h1 : x.name = n
  · by_cases h2 : x.type = k
    · simp [h1, h2]
    · simp [h1, h2]
  · simp [h1]

theorem sumNK_eq_of_all (n k nm tp : String) :
    ∀ l : List FoodItem, (∀ x ∈ l, x.name = nm ∧ x.type = tp) →
      sumNK n k l = if nm = n ∧ tp = k then (l.map (fun x => x.amount)).sum else 0 := by
  intro l
  induction l with
  | nil =>
    intro _
    unfold sumNK
    simp only [List.filter_nil, List.map_nil, List.sum_nil]
    split
    · rfl
    · rfl
  | cons x xs ih =>
    intro h
    rw [sumNK_cons]
    have hx := h x (List.mem_cons_self x xs)
    rw [ih (fun y hy => h y (List.mem_cons_of_mem x hy))]
    rw [hx.1, hx.2]
    by_cases hc : nm = n ∧ tp = k
    · rw [if_pos hc, if_pos hc, if_pos hc]
      simp [List.map_cons, List.sum_cons]
    · rw [if_neg hc, if_neg hc, if_neg hc]
      simp

theorem sumNK_flatten_of_hom (n k : String) :
    ∀ gs : List (FoodItem × List FoodItem),
      (∀ g ∈ gs, ∀ x ∈ g.2, x.name = g.1.name ∧ x.type = g.1.type) →
      sumNK n k (gs.map
        (fun g => { g.1 with amount := g.1.amount + (g.2.map (fun y => y.amount)).sum }))
        = sumNK n k (flattenGroups gs) := by
  intro gs
  induction gs with
  | nil => intro _; rfl
  | cons g gs ih =>
    intro h
    rw [List.map_cons]
    have hcons : sumNK n k
        (({ g.1 with amount := g.1.amount + (g.2.map (fun y => y.amount)).sum }) ::
          gs.map (fun g =>
            { g.1 with amount := g.1.amount + (g.2.map (fun y => y.amount)).sum })) =
        (if g.1.name = n ∧ g.1.type = k then
          g.1.amount + (g.2.map (fun y => y.amount)).sum else 0) +
        sumNK n k (gs.map (fun g =>
          { g.1 with amount := g.1.amount + (g.2.map (fun y => y.amount)).sum })) :=
      sumNK_cons n k _ _
    rw [hcons]
    show _ = sumNK n k (g.1 :: (g.2 ++ flattenGroups gs))
    rw [sumNK_cons, sumNK_append]
    rw [ih (fun g' hg' => h g' (List.mem_cons_of_mem g hg'))]
    have hg2 : sumNK n k g.2 =
        if g.1.name = n ∧ g.1.type = k then (g.2.map (fun x => x.amount)).sum else 0 :=
      sumNK_eq_of_all n k g.1.name g.1.type g.2
        (fun x hx => h g (List.mem_cons_self g gs) x hx)
    rw [hg2]
    by_cases hc : g.1.name = n ∧ g.1.type = k
    · rw [if_pos hc, if_pos hc, if_pos hc]
      omega
    · rw [if_neg hc, if_neg hc, if_neg hc]
      omega

/-- Claim C3 (amended): `_compact_food_list` never puts two entries of
equal name and different kinds into one group; and, provided distinct
(name, kind) pairs have distinct concatenated `name + type` keys, the
total quantity of each exact (name, kind) pair is preserved — equal
(name, kind) entries are merged into one or more output entries (one
per maximal run after the stable name sort) whose quantities sum to the
group's exact total.  (The original claim's "a single output entry"
fails: see the counterexample with interleaved kinds.) -/
theorem C3_kind_sensitive_grouping (l : List FoodItem)
    (hinj : ∀ x ∈ l, ∀ y ∈ l, nameKey x = nameKey y → x.name = y.name)
    (n k : String) :
    (∀ g ∈ groupRuns nameKey (sortLe nameLe l), ∀ x ∈ g.2,
        x.name = g.1.name → x.type = g.1.type) ∧
    sumNK n k (compact_food_list l) = sumNK n k l := by
  have hmeml : ∀ g ∈ groupRuns nameKey (sortLe nameLe l), ∀ x ∈ g.1 :: g.2, x ∈ l := by
    intro g hg x hx
    have hsub := groupRuns_group_sublist nameKey g hg
    exact ((sortLe_perm nameLe l).mem_iff).mp (hsub.subset hx)
  constructor
  · intro g hg x hx hn
    exact key_eq_name_type (groupRuns_keys nameKey g hg x hx) hn
  · have hhom : ∀ g ∈ groupRuns nameKey (sortLe nameLe l), ∀ x ∈ g.2,
        x.name = g.1.name ∧ x.type = g.1.type := by
      intro g hg x hx
      have hk := groupRuns_keys nameKey g hg x hx
      have hx_l : x ∈ l := hmeml g hg x (List.mem_cons_of_mem _ hx)
      have hg1_l : g.1 ∈ l := hmeml g hg g.1 (List.mem_cons_self _ _)
      have hn := hinj x hx_l g.1 hg1_l hk
      exact ⟨hn, key_eq_name_type hk hn⟩
    have h1 : sumNK n k (compact_food_list l) =
        sumNK n k (flattenGroups (groupRuns nameKey (sortLe nameLe l))) :=
      sumNK_flatten_of_hom n k _ hhom
    rw [h1, groupRuns_flatten]
    unfold sumNK
    exact List.Perm.sum_eq (List.Perm.map _ (List.Perm.filter _ (sortLe_perm nameLe l)))

/-- Witness for the amended C3 at a concrete list: two cheese-slices
entries keep their total of 5 slices through compaction. -/
theorem C3_witness :
    sumNK "cheese" "slices" (compact_food_list
      [⟨2, "slices", "cheese", none⟩, ⟨3, "slices", "cheese", none⟩]) =
    sumNK "cheese" "slices"
      [⟨2, "slices", "cheese", none⟩, ⟨3, "slices", "cheese", none⟩] :=
  (C3_kind_sensitive_grouping _ (by decide) "cheese" "slices").2

/-- Claim C10 (amended): provided the concatenated `name + type` keys
are injective on the fridge entries (no cross-pair collision such as
`"ab" + "c" = "a" + "bc"`), every output entry of `todays_food` carries
the minimum expiry among the entries merged into it: the entries are
expiry-sorted before the stable name sort, so each group's
representative (its first element, whose expiry the output keeps) is
the soonest-expiring member of its group.  (Without key injectivity the
property fails: see the collision counterexample.) -/
theorem C10_representative_min_expiry (today : PyDate) (items : List FoodItem)
    (_hdates : ∀ x ∈ items, x.expiry ≠ none)
    (hinj : ∀ x ∈ items, ∀ y ∈ items, nameKey x = nameKey y → x.name = y.name) :
    todays_food today items =
      (groupRuns nameKey (sortLe nameLe (edible_food today items))).map
        (fun g => { g.1 with amount := g.1.amount + (g.2.map (fun y => y.amount)).sum }) ∧
    ∀ g ∈ groupRuns nameKey (sortLe nameLe (edible_food today items)),
      ∀ x ∈ g.1 :: g.2, optDateBle g.1.expiry x.expiry = true := by
  refine ⟨rfl, ?_⟩
  intro g hg x hx
  have hsubE : (g.1 :: g.2).Sublist (sortLe nameLe (edible_food today items)) :=
    groupRuns_group_sublist nameKey g hg
  have hmemI : ∀ z ∈ g.1 :: g.2, z ∈ items := by
    intro z hz
    have h1 : z ∈ edible_food today items :=
      ((sortLe_perm nameLe _).mem_iff).mp (hsubE.subset hz)
    unfold edible_food at h1
    exact ((sortLe_perm expiryLe items).mem_iff).mp (List.mem_of_mem_filter h1)
  have hname : ∀ z ∈ g.1 :: g.2, z.name = g.1.name := by
    intro z hz
    rcases List.mem_cons.mp hz with hz | hz
    · rw [hz]
    · exact hinj z (hmemI z (List.mem_cons_of_mem _ hz)) g.1
        (hmemI g.1 (List.mem_cons_self _ _)) (groupRuns_keys nameKey g hg z hz)
  have hpairE : List.Pairwise (fun a b => optDateBle a.expiry b.expiry = true)
      (edible_food today items) := by
    have hp : List.Pairwise (fun a b => expiryLe a b = true) (sortLe expiryLe items) :=
      pairwise_sortLe expiryLe_total (fun _ _ _ h1 h2 => expiryLe_trans h1 h2) items
    exact List.Pairwise.sublist (List.filter_sublist _) hp
  have hfil : (g.1 :: g.2).filter (fun z => decide (z.name = g.1.name)) = g.1 :: g.2 :=
    List.filter_eq_self.mpr (by intro a ha; simp [hname a ha])
  have hsubf : (g.1 :: g.2).Sublist
      ((sortLe nameLe (edible_food today items)).filter
        (fun z => decide (z.name = g.1.name))) := by
    rw [← hfil]
    exact List.Sublist.filter _ hsubE
  rw [filter_sortLe_name] at hsubf
  have hpairg : List.Pairwise (fun a b => optDateBle a.expiry b.expiry = true)
      (g.1 :: g.2) :=
    List.Pairwise.sublist (hsubf.trans (List.filter_sublist _)) hpairE
  rcases List.mem_cons.mp hx with hx | hx
  · rw [hx]
    exact optDateBle_refl _
  · exact List.rel_of_pairwise_cons hpairg hx

/-- Witness for the amended C10 at a concrete fridge: two bread entries
merge and the output is the group map, whose representative is the
2014-01-05 (soonest-expiring) entry. -/
theorem C10_witness :
    todays_food ⟨2014, 1, 1⟩
        [⟨1, "slices", "bread", some ⟨2014, 2, 1⟩⟩,
         ⟨1, "slices", "bread", some ⟨2014, 1, 5⟩⟩] =
      (groupRuns nameKey (sortLe nameLe (edible_food ⟨2014, 1, 1⟩
        [⟨1, "slices", "bread", some ⟨2014, 2, 1⟩⟩,
         ⟨1, "slices", "bread", some ⟨2014, 1, 5⟩⟩]))).map
        (fun g => { g.1 with amount := g.1.amount + (g.2.map (fun y => y.amount)).sum }) :=
  (C10_representative_min_expiry ⟨2014, 1, 1⟩ _ (by decide) (by decide)).1

/-- Claim C2: `_get_cooking_date` binds each required ingredient to the
first entry of the available inventory (in iteration order) whose name
equals the required name and whose quantity suffices; if some ingredient
has no match the result is `none` regardless of the other ingredients,
and if every ingredient of a nonempty list is matched the result is the
minimum (under Python 2's `None`-smallest order) of the bound entries'
expiry dates, which `matchDates` collects in order. -/
theorem C2_get_cooking_date (ings food : List FoodItem) :
    (∀ y z : FoodItem, food.find? (itemMatches y) = some z →
      (z.name = y.name ∧ z.amount ≥ y.amount) ∧
      ∃ l1 l2, food = l1 ++ z :: l2 ∧ ∀ w ∈ l1, itemMatches y w = false) ∧
    ((∃ y ∈ ings, food.find? (itemMatches y) = none) →
      get_cooking_date ings food = none) ∧
    (∀ ds, matchDates food ings = some ds → ings ≠ [] →
      get_cooking_date ings food ∈ ds ∧
      ∀ d ∈ ds, optDateBle (get_cooking_date ings food) d = true) := by
  refine ⟨?_, ?_, ?_⟩
  · intro y z hz
    obtain ⟨hp, l1, l2, hl, hl1⟩ := find?_first hz
    refine ⟨?_, l1, l2, hl, hl1⟩
    simpa [itemMatches] using hp
  · intro h
    cases ings with
    | nil => rfl
    | cons y ys =>
      have hmd := matchDates_none h
      simp [get_cooking_date, hmd]
  · intro ds hds hne
    cases ings with
    | nil => exact absurd rfl hne
    | cons y ys =>
      have hgcd : get_cooking_date (y :: ys) food = pyMinDates ds := by
        simp [get_cooking_date, hds]
      have hdsne : ds ≠ [] := by
        rw [matchDates] at hds
        cases hf : food.find? (itemMatches y) with
        | none => rw [hf] at hds; cases hds
        | some z =>
          rw [hf] at hds
          obtain ⟨a, -, hza⟩ := Option.map_eq_some'.mp hds
          rw [← hza]
          exact List.cons_ne_nil _ _
      rw [hgcd]
      exact pyMinDates_spec hdsne

/-- Witness for C2 at a concrete recipe and fridge: the single cheese
requirement binds to the 10-slice entry and the cooking date is its
expiry. -/
theorem C2_witness :
    get_cooking_date [⟨2, "slices", "cheese", none⟩]
        [⟨10, "slices", "cheese", some ⟨2014, 6, 1⟩⟩] ∈
      [some (⟨2014, 6, 1⟩ : PyDate)] :=
  ((C2_get_cooking_date [⟨2, "slices", "cheese", none⟩]
      [⟨10, "slices", "cheese", some ⟨2014, 6, 1⟩⟩]).2.2
    [some ⟨2014, 6, 1⟩] (by decide) (by decide)).1

theorem FoodType.build_eq_some {s t : String} (h : FoodType.build s = some t) :
    t = FoodType.SINGLE ∨ t = FoodType.GRAMS ∨ t = FoodType.ML ∨ t = FoodType.SLICES := by
  unfold FoodType.build at h
  by_cases hc : s = FoodType.SINGLE ∨ s = FoodType.GRAMS ∨ s = FoodType.ML ∨ s = FoodType.SLICES
  · rw [if_pos hc] at h
    injection h with ht
    rw [← ht]
    exact hc
  · rw [if_neg hc] at h
    cases h

theorem pyDateMk_valid {y m d : Int} {dt : PyDate} (h : pyDateMk y m d = some dt) :
    1 ≤ dt.year ∧ dt.year ≤ 9999 ∧ 1 ≤ dt.month ∧ dt.month ≤ 12 ∧ 1 ≤ dt.day ∧
      dt.day ≤ daysInMonth dt.year dt.month := by
  unfold pyDateMk at h
  by_cases hc : 1 ≤ y ∧ y ≤ 9999 ∧ 1 ≤ m ∧ m ≤ 12 ∧ 1 ≤ d ∧ d ≤ daysInMonth y m
  · rw [if_pos hc] at h
    injection h with h
    subst h
    exact hc
  · rw [if_neg hc] at h
    cases h

theorem parseExpiry_valid {e : String} {dt : PyDate} (h : parseExpiry e = some dt) :
    1 ≤ dt.year ∧ dt.year ≤ 9999 ∧ 1 ≤ dt.month ∧ dt.month ≤ 12 ∧ 1 ≤ dt.day ∧
      dt.day ≤ daysInMonth dt.year dt.month := by
  unfold parseExpiry at h
  split at h
  · exact pyDateMk_valid h
  · cases h

/-- Claim C9: entry construction is all-or-nothing: either parsing fails
and `build_fridge_item` leaves the list exactly unchanged (the failure
is only printed, so a failed entry never aborts later entries of a
batch), or exactly one entry is appended, with trimmed non-empty name,
a kind from the closed `FoodType` set, a positive integer quantity, and
either no expiry or a valid calendar date. -/
theorem C9_build_all_or_nothing (items : List FoodItem)
    (name amt food_type : String) (expiry : Option String) :
    (parseFridgeItem name amt food_type expiry = none ∧
      build_fridge_item items name amt food_type expiry = items) ∨
    (∃ it, parseFridgeItem name amt food_type expiry = some it ∧
      build_fridge_item items name amt food_type expiry = items ++ [it] ∧
      it.name = pyStrip name ∧ it.name ≠ "" ∧
      (it.type = FoodType.SINGLE ∨ it.type = FoodType.GRAMS ∨
        it.type = FoodType.ML ∨ it.type = FoodType.SLICES) ∧
      0 < it.amount ∧
      (it.expiry = none ∨ ∃ d, it.expiry = some d ∧
        1 ≤ d.year ∧ d.year ≤ 9999 ∧ 1 ≤ d.month ∧ d.month ≤ 12 ∧
        1 ≤ d.day ∧ d.day ≤ daysInMonth d.year d.month)) := by
  cases hp : parseFridgeItem name amt food_type expiry with
  | none =>
    left
    refine ⟨rfl, ?_⟩
    unfold build_fridge_item
    rw [hp]
  | some it =>
    right
    refine ⟨it, rfl, ?_⟩
    have hbuild : build_fridge_item items name amt food_type expiry = items ++ [it] := by
      unfold build_fridge_item
      rw [hp]
    have hq := hp
    unfold parseFridgeItem at hq
    split at hq
    · cases hq
    · next hn =>
      split at hq
      · cases hq
      · next ty hty =>
        split at hq
        · cases hq
        · next a ha =>
          split at hq
          · cases hq
          · next hpos =>
            have hty4 := FoodType.build_eq_some hty
            split at hq
            · injection hq with hq
              subst hq
              exact ⟨hbuild, rfl, hn, hty4, by show (0 : Int) < a; omega, Or.inl rfl⟩
            · next e =>
              split at hq
              · next he =>
                injection hq with hq
                subst hq
                exact ⟨hbuild, rfl, hn, hty4, by show (0 : Int) < a; omega, Or.inl rfl⟩
              · next he =>
                split at hq
                · cases hq
                · next dt hd =>
                  injection hq with hq
                  subst hq
                  exact ⟨hbuild, rfl, hn, hty4, by show (0 : Int) < a; omega,
                    Or.inr ⟨dt, rfl, parseExpiry_valid hd⟩⟩

theorem mem_tagItems :
    ∀ {l : List FoodItem} {n : Nat} {p : Nat × FoodItem}, p ∈ tagItems n l →
      n ≤ p.1 ∧ l.get? (p.1 - n) = some p.2 := by
  intro l
  induction l with
  | nil => intro n p hp; cases hp
  | cons x xs ih =>
    intro n p hp
    rcases List.mem_cons.mp hp with hp | hp
    · rw [hp]
      refine ⟨Nat.le_refl n, ?_⟩
      show (x :: xs).get? (n - n) = some x
      rw [Nat.sub_self]
      rfl
    · obtain ⟨h1, h2⟩ := ih hp
      refine ⟨by omega, ?_⟩
      have hidx : p.1 - n = (p.1 - (n + 1)) + 1 := by omega
      rw [hidx]
      exact h2

theorem mem_tagItems_snd :
    ∀ {l : List FoodItem} {n : Nat} {p : Nat × FoodItem},
      p ∈ tagItems n l → p.2 ∈ l := by
  intro l
  induction l with
  | nil => intro n p hp; cases hp
  | cons x xs ih =>
    intro n p hp
    rcases List.mem_cons.mp hp with hp | hp
    · rw [hp]; exact List.mem_cons_self x xs
    · exact List.mem_cons_of_mem x (ih hp)

theorem pairwise_tagItems {R : FoodItem → FoodItem → Prop} :
    ∀ {l : List FoodItem} {n : Nat}, List.Pairwise R l →
      List.Pairwise (fun a b : Nat × FoodItem => R a.2 b.2) (tagItems n l) := by
  intro l
  induction l with
  | nil => intro n _; exact List.Pairwise.nil
  | cons x xs ih =>
    intro n hp
    refine List.Pairwise.cons ?_ (ih hp.tail)
    intro b hb
    exact List.rel_of_pairwise_cons hp (mem_tagItems_snd hb)

theorem lookup_mem {i : Nat} {a : Int} :
    ∀ {l : List (Nat × Int)}, l.lookup i = some a → (i, a) ∈ l := by
  intro l
  induction l with
  | nil => intro h; cases h
  | cons p ps ih =>
    intro h
    obtain ⟨k, b⟩ := p
    simp only [List.lookup] at h
    split at h
    · next heq =>
      have hik : i = k := by simpa using heq
      subst hik
      injection h with h
      subst h
      exact List.mem_cons_self _ _
    · exact List.mem_cons_of_mem _ (ih h)

theorem applyMuts_id (muts : List (Nat × Int)) :
    ∀ (l : List FoodItem) (n : Nat),
      (∀ j a, muts.lookup (n + j) = some a →
        ∀ v, l.get? j = some v → v.amount = a) →
      applyMuts muts n l = l := by
  intro l
  induction l with
  | nil => intro n _; rfl
  | cons x xs ih =>
    intro n h
    show (match muts.lookup n with
      | some a => { x with amount := a }
      | none => x) :: applyMuts muts (n + 1) xs = x :: xs
    have htail : applyMuts muts (n + 1) xs = xs := by
      apply ih
      intro j a ha v hv
      refine h (j + 1) a ?_ v hv
      rw [show n + (j + 1) = (n + 1) + j by omega]
      exact ha
    rw [htail]
    cases hl : muts.lookup n with
    | none => rfl
    | some a =>
      have hx : x.amount = a := h 0 a (by rw [Nat.add_zero]; exact hl) x rfl
      show ({ x with amount := a } : FoodItem) :: xs = x :: xs
      rw [← hx]

theorem todays_food_state_snd (today : PyDate) (items : List FoodItem)
    (hkeys : List.Pairwise (fun x y : FoodItem => nameKey x ≠ nameKey y) items) :
    (todays_food_state today items).2 = items := by
  show applyMuts
      ((groupRuns (fun a => nameKey a.2)
        (sortLe (fun a b => nameLe a.2 b.2)
          ((sortLe (fun a b => expiryLe a.2 b.2) (tagItems 0 items)).filter
            (fun a => expiryGe a.2.expiry today)))).map
        (fun g => (g.1.1, g.1.2.amount + (g.2.map (fun y => y.2.amount)).sum)))
      0 items = items
  set E := (sortLe (fun a b : Nat × FoodItem => expiryLe a.2 b.2) (tagItems 0 items)).filter
    (fun a => expiryGe a.2.expiry today) with hE
  set S := sortLe (fun a b : Nat × FoodItem => nameLe a.2 b.2) E with hS
  have hsymm : ∀ {a b : Nat × FoodItem}, nameKey a.2 ≠ nameKey b.2 →
      nameKey b.2 ≠ nameKey a.2 := by
    intro a b h hc
    exact h hc.symm
  have htag : List.Pairwise (fun a b : Nat × FoodItem => nameKey a.2 ≠ nameKey b.2)
      (tagItems 0 items) := pairwise_tagItems hkeys
  have hsorted1 : List.Pairwise (fun a b : Nat × FoodItem => nameKey a.2 ≠ nameKey b.2)
      (sortLe (fun a b : Nat × FoodItem => expiryLe a.2 b.2) (tagItems 0 items)) :=
    (List.Perm.pairwise_iff hsymm (sortLe_perm _ _)).mpr htag
  have hEp : List.Pairwise (fun a b : Nat × FoodItem => nameKey a.2 ≠ nameKey b.2) E := by
    rw [hE]
    exact List.Pairwise.sublist (List.filter_sublist _) hsorted1
  have hSp : List.Pairwise (fun a b : Nat × FoodItem => nameKey a.2 ≠ nameKey b.2) S := by
    rw [hS]
    exact (List.Perm.pairwise_iff hsymm (sortLe_perm _ E)).mpr hEp
  have hgs : groupRuns (fun a : Nat × FoodItem => nameKey a.2) S =
      S.map (fun x => (x, [])) :=
    groupRuns_of_chain_ne _ hSp.chain'
  rw [hgs, List.map_map]
  apply applyMuts_id
  intro j a ha v hv
  rw [Nat.zero_add] at ha
  have hmem := lookup_mem ha
  obtain ⟨p, hpS, hpe⟩ := List.mem_map.mp hmem
  have hj : p.1 = j := congrArg Prod.fst hpe
  have hamt : p.2.amount = a := by
    have h2 := congrArg Prod.snd hpe
    simpa using h2
  have hpE : p ∈ E := by
    rw [hS] at hpS
    exact ((sortLe_perm _ E).mem_iff).mp hpS
  have hpt : p ∈ tagItems 0 items := by
    rw [hE] at hpE
    exact ((sortLe_perm _ _).mem_iff).mp (List.mem_of_mem_filter hpE)
  have hget := (mem_tagItems hpt).2
  rw [Nat.sub_zero, hj, hv] at hget
  injection hget with hget
  rw [hget]
  exact hamt

/-- Claim C5 (amended): when no two fridge entries share a grouping key
(so compaction merges nothing), `todays_recipe` leaves the fridge
unchanged and a second invocation on the same state returns the same
recipe.  In general the claim fails: `_compact_food_list` mutates the
amounts of the fridge's own entries, so a second call can select a
different recipe (see the counterexample). -/
theorem C5_recompute_idempotent (today : PyDate) (fridge : List FoodItem)
    (recipes : List RecipeItem)
    (hkeys : List.Pairwise (fun x y : FoodItem => nameKey x ≠ nameKey y) fridge) :
    (todays_recipe_state today fridge recipes).2 = fridge ∧
    todays_recipe_state today (todays_recipe_state today fridge recipes).2 recipes =
      todays_recipe_state today fridge recipes := by
  have h2 : (todays_recipe_state today fridge recipes).2 = fridge :=
    todays_food_state_snd today fridge hkeys
  exact ⟨h2, by rw [h2]⟩

/-- Witness for the amended C5 at a concrete fridge with distinct
(name, kind) keys: the fridge is unchanged by the call. -/
theorem C5_witness :
    (todays_recipe_state ⟨2014, 1, 1⟩
      [⟨10, "slices", "bread", some ⟨2014, 6, 1⟩⟩,
       ⟨10, "slices", "cheese", some ⟨2014, 6, 1⟩⟩]
      [⟨"toast", [⟨2, "slices", "bread", none⟩, ⟨2, "slices", "cheese", none⟩]⟩]).2 =
    [⟨10, "slices", "bread", some ⟨2014, 6, 1⟩⟩,
     ⟨10, "slices", "cheese", some ⟨2014, 6, 1⟩⟩] :=
  (C5_recompute_idempotent ⟨2014, 1, 1⟩ _ _ (by decide)).1

theorem recipeListEntry_inv {today : PyDate} {fridge : List FoodItem}
    {r : RecipeItem} {pr : PyDate × RecipeItem}
    (h : recipeListEntry today fridge r = some pr) :
    pr.2 = r ∧ get_cooking_date r.ingredients (todays_food today fridge) = some pr.1 := by
  unfold recipeListEntry at h
  cases hg : get_cooking_date r.ingredients (todays_food today fridge) with
  | none => rw [hg] at h; cases h
  | some d =>
    rw [hg] at h
    injection h with h
    rw [← h]
    exact ⟨rfl, rfl⟩

theorem recipeListEntry_of_some {today : PyDate} {fridge : List FoodItem}
    {r : RecipeItem} {d : PyDate}
    (h : get_cooking_date r.ingredients (todays_food today fridge) = some d) :
    recipeListEntry today fridge r = some (d, r) := by
  unfold recipeListEntry
  rw [h]

/-- Claim C1: `todays_recipe` returns the sentinel (fixed name
`Order Takeout`, empty ingredients) when no recipe has a truthy cooking
date, and otherwise returns the first recipe in input order whose
cook-by date equals the minimum cook-by date over all feasible recipes
(Python's `min` keeps the earliest minimal element, so ties on the
minimum date are broken by input order). -/
theorem C1_recipe_selection (today : PyDate) (fridge : List FoodItem)
    (recipes : List RecipeItem) :
    ((∀ r ∈ recipes,
        get_cooking_date r.ingredients (todays_food today fridge) = none) →
      todays_recipe today fridge recipes = RecipeItem.noRecipe) ∧
    (∀ r0 ∈ recipes, ∀ d0,
      get_cooking_date r0.ingredients (todays_food today fridge) = some d0 →
      ∃ l1 l2 d, recipes = l1 ++ todays_recipe today fridge recipes :: l2 ∧
        get_cooking_date (todays_recipe today fridge recipes).ingredients
          (todays_food today fridge) = some d ∧
        (∀ r ∈ recipes, ∀ dr,
          get_cooking_date r.ingredients (todays_food today fridge) = some dr →
          PyDate.ble d dr = true) ∧
        (∀ r ∈ l1, ∀ dr,
          get_cooking_date r.ingredients (todays_food today fridge) = some dr →
          PyDate.blt d dr = true)) := by
  have hTR : todays_recipe today fridge recipes =
      match recipes.filterMap (recipeListEntry today fridge) with
      | [] => RecipeItem.noRecipe
      | p :: ps => (pyMinByDate p ps).2 := rfl
  constructor
  · intro hall
    have hnil : recipes.filterMap (recipeListEntry today fridge) = [] := by
      rw [List.filterMap_eq_nil_iff]
      intro r hr
      unfold recipeListEntry
      rw [hall r hr]
    rw [hTR, hnil]
  · intro r0 hr0 d0 hd0
    have hmem0 : (d0, r0) ∈ recipes.filterMap (recipeListEntry today fridge) :=
      List.mem_filterMap.mpr ⟨r0, hr0, recipeListEntry_of_some hd0⟩
    cases hRL : recipes.filterMap (recipeListEntry today fridge) with
    | nil => rw [hRL] at hmem0; cases hmem0
    | cons p ps =>
      obtain ⟨L1, L2, heq, hble, hblt⟩ := pyMinByDate_spec ps p
      have hsplit : recipes.filterMap (recipeListEntry today fridge) =
          L1 ++ pyMinByDate p ps :: L2 := by rw [hRL, heq]
      obtain ⟨l1, aR, l2, hrec, hfa, h1, h2⟩ := filterMap_split hsplit
      have hinv := recipeListEntry_inv hfa
      have hres : todays_recipe today fridge recipes = (pyMinByDate p ps).2 := by
        rw [hTR, hRL]
      refine ⟨l1, l2, (pyMinByDate p ps).1, ?_, ?_, ?_, ?_⟩
      · rw [hres, hinv.1]
        exact hrec
      · rw [hres, hinv.1]
        exact hinv.2
      · intro r hr dr hdr
        have hmem : (dr, r) ∈ recipes.filterMap (recipeListEntry today fridge) :=
          List.mem_filterMap.mpr ⟨r, hr, recipeListEntry_of_some hdr⟩
        rw [hRL] at hmem
        exact hble (dr, r) hmem
      · intro r hr dr hdr
        have hmem : (dr, r) ∈ L1 := by
          rw [← h1]
          exact List.mem_filterMap.mpr ⟨r, hr, recipeListEntry_of_some hdr⟩
        exact hblt (dr, r) hmem

/-- Witness for C1 at a concrete input: with an empty fridge no recipe
is feasible and the sentinel is returned. -/
theorem C1_witness :
    todays_recipe ⟨2015, 1, 1⟩ []
      [⟨"toast", [⟨2, "slices", "bread", none⟩]⟩] = RecipeItem.noRecipe :=
  (C1_recipe_selection ⟨2015, 1, 1⟩ []
    [⟨"toast", [⟨2, "slices", "bread", none⟩]⟩]).1 (by decide)
